import Mathlib

/-!
Verification of the 0g3lib slice library (src/slice.c) against its
specification.  The C code is shallowly embedded: a `Slice` holds the list
of logically valid elements (the buffer contents up to `len`), the
capacity and the element byte size, mirroring the C struct.  Allocation is
modelled by an oracle: a list of predicates, one consumed per allocation
event (malloc, calloc, realloc), each deciding success from the request it
is shown; the exhausted oracle grants every request, so the empty oracle
is the always-successful allocator.
-/

/-- Allocation request issued to the allocator, carrying the quantities the
C code passes to malloc, calloc and realloc. -/
inductive AllocReq where
  | mallocSlice : AllocReq
  | callocBuf (cnt : Int) (elSize : Nat) : AllocReq
  | reallocBuf (bytes : Int) : AllocReq
  | mallocBuf (bytes : Int) : AllocReq

/-- Allocator oracle: each allocation event consumes one entry, which
decides success from the request; an exhausted oracle grants requests. -/
abbrev Heap : Type := List (AllocReq → Bool)

/-- Consume one allocation event from the oracle. -/
def allocOk (r : AllocReq) : Heap → Bool × Heap
  | [] => (true, [])
  | f :: rest => (f r, rest)

/-- Embedding of `struct Slice`: `data` is the list of the `len` logically
valid elements of the buffer, `cap` the capacity in elements (C `int`),
`elSize` the element byte size (C `unsigned int`). -/
structure Slice (α : Type) where
  data : List α
  cap : Int
  elSize : Nat

/-- Logical length `s->len` of a slice, as a C `int`. -/
def Slice.len {α : Type} (s : Slice α) : Int := s.data.length

/-- Embedding of `NewSlice`: malloc the header, reject a negative capacity
or a failed malloc, then calloc the buffer. -/
def NewSlice (α : Type) (elSize : Nat) (cap : Int) (h : Heap) :
    Option (Slice α) × Heap :=
  match allocOk AllocReq.mallocSlice h with
  | (ok1, h1) =>
    if cap < 0 ∨ ok1 = false then (none, h1)
    else
      match allocOk (AllocReq.callocBuf cap elSize) h1 with
      | (false, h2) => (none, h2)
      | (true, h2) => (some { data := [], cap := cap, elSize := elSize }, h2)

/-- Embedding of `SliceGet`: non-negative indices address from the front,
negative indices address `len + i` from the back; out of range gives NULL
(`none`). -/
def SliceGet {α : Type} (s : Slice α) (i : Int) : Option α :=
  if 0 ≤ i then
    if s.len ≤ i then none
    else s.data.get? i.toNat
  else
    if s.len + i < 0 then none
    else s.data.get? (s.len + i).toNat

/-- Unbounded value of the byte-count expression
`(s->cap + s->elSize) * s->elSize * 2` that `SliceAppend` hands to realloc
when it grows the buffer. -/
def reallocBytes (cap : Int) (elSize : Nat) : Int :=
  (cap + elSize) * elSize * 2

/-- Byte count realloc actually receives: the C expression behind
`reallocBytes` is evaluated in 32-bit `unsigned int` arithmetic (`s->cap`
is converted to `unsigned int`), so its value wraps modulo `2 ^ 32`; a
single final reduction is exact because modular arithmetic distributes
over the sums and products of the expression. -/
def reallocBytesWrapped (cap : Int) (elSize : Nat) : Int :=
  reallocBytes cap elSize % 2 ^ 32

/-- Element capacity `(s->cap + 1) * 2` installed by `SliceAppend` after a
successful growth reallocation. -/
def grownCap (cap : Int) : Int := (cap + 1) * 2

/-- Embedding of `SliceAppend`: when `len == cap`, realloc
`reallocBytes cap elSize` bytes (failure returns NULL with the slice
untouched) and set `cap := grownCap cap`; then copy the element into the
next slot and increment `len`. -/
def SliceAppend {α : Type} (s : Slice α) (dat : α) (h : Heap) :
    Option (Slice α) × Heap :=
  if s.len = s.cap then
    match allocOk (AllocReq.reallocBuf (reallocBytes s.cap s.elSize)) h with
    | (false, h1) => (none, h1)
    | (true, h1) =>
      (some { s with data := s.data ++ [dat], cap := grownCap s.cap }, h1)
  else (some { s with data := s.data ++ [dat] }, h)

/-- Resolved index of `SliceGet`: `i` itself for `i >= 0`, `len + i` for
`i < 0`. -/
def resolveIdx (len i : Int) : Int := if 0 ≤ i then i else len + i

/-- Normalization `SliceSlice` applies to its start bound:
`i1 < 0 → len + i1`. -/
def normStart (len i1 : Int) : Int := if i1 < 0 then len + i1 else i1

/-- Normalization `SliceSlice` applies to its end bound:
`i2 < 0 → len + i2 + 1` (note the extra `+ 1`, absent from `normStart`). -/
def normEnd (len i2 : Int) : Int := if i2 < 0 then len + i2 + 1 else i2

/-- Ascending copy loop of `SliceSlice` (`step > 0`):
`for (i = i1; i < i2; i += step)` fetch source element `i` and append it to
`ret`; a failed fetch or append aborts with NULL. -/
def copyPos {α : Type} (s : Slice α) (i2 step : Int) (i : Int)
    (ret : Slice α) (h : Heap) : Option (Slice α) × Heap :=
  if hc : 0 < step ∧ i < i2 then
    match SliceGet s i with
    | none => (none, h)
    | some v =>
      match SliceAppend ret v h with
      | (none, h1) => (none, h1)
      | (some ret1, h1) => copyPos s i2 step (i + step) ret1 h1
  else (some ret, h)
termination_by (i2 - i).toNat
decreasing_by omega

/-- Descending copy loop of `SliceSlice` (`step < 0`):
`for (i = i2-1; i >= i1; i += step)` fetch source element `i` and append it
to `ret`; a failed fetch or append aborts with NULL. -/
def copyNeg {α : Type} (s : Slice α) (i1 step : Int) (i : Int)
    (ret : Slice α) (h : Heap) : Option (Slice α) × Heap :=
  if hc : step < 0 ∧ i1 ≤ i then
    match SliceGet s i with
    | none => (none, h)
    | some v =>
      match SliceAppend ret v h with
      | (none, h1) => (none, h1)
      | (some ret1, h1) => copyNeg s i1 step (i + step) ret1 h1
  else (some ret, h)
termination_by (i - i1 + 1).toNat
decreasing_by omega

/-- Index sequence visited by the ascending copy loop of `SliceSlice`. -/
def posIdx (i2 step : Int) (i : Int) : List Int :=
  if hc : 0 < step ∧ i < i2 then i :: posIdx i2 step (i + step) else []
termination_by (i2 - i).toNat
decreasing_by omega

/-- Index sequence visited by the descending copy loop of `SliceSlice`. -/
def negIdx (i1 step : Int) (i : Int) : List Int :=
  if hc : step < 0 ∧ i1 ≤ i then i :: negIdx i1 step (i + step) else []
termination_by (i - i1 + 1).toNat
decreasing_by omega

/-- Embedding of `SliceSlice`: validate bounds and step, normalize negative
bounds, reject `start >= end`, allocate the result with capacity
`end - start`, then copy ascending or descending by the sign of `step`. -/
def SliceSlice {α : Type} (s : Slice α) (i1 i2 step : Int) (h : Heap) :
    Option (Slice α) × Heap :=
  if s.len ≤ i1 ∨ i1 < -s.len ∨ s.len < i2 ∨ i2 < -s.len ∨ step = 0 then
    (none, h)
  else
    if normEnd s.len i2 ≤ normStart s.len i1 then (none, h)
    else
      match NewSlice α s.elSize (normEnd s.len i2 - normStart s.len i1) h with
      | (none, h1) => (none, h1)
      | (some ret, h1) =>
        if 0 < step then
          copyPos s (normEnd s.len i2) step (normStart s.len i1) ret h1
        else
          copyNeg s (normStart s.len i1) step (normEnd s.len i2 - 1) ret h1

/-- Observable outcome of `SliceMap` and `SliceFilter`: a returned slice, a
returned NULL, or a crash (dereference of a NULL slice inside the loop,
which the C code can reach because it never checks its initial `NewSlice`
for NULL). -/
inductive MapOut (β : Type) where
  | ok (r : Slice β) : MapOut β
  | nullRet : MapOut β
  | crash : MapOut β

/-- Loop of `SliceMap`: append `f` of each source element to `ret`; a
failed append returns NULL. -/
def mapLoop {α β : Type} (s : Slice α) (f : α → β) (i : Int) (ret : Slice β)
    (h : Heap) : MapOut β × Heap :=
  if hc : i < s.len then
    match SliceGet s i with
    | none => (MapOut.crash, h)
    | some v =>
      match SliceAppend ret (f v) h with
      | (none, h1) => (MapOut.nullRet, h1)
      | (some ret1, h1) => mapLoop s f (i + 1) ret1 h1
  else (MapOut.ok ret, h)
termination_by (s.len - i).toNat
decreasing_by omega

/-- Embedding of `SliceMap`: allocate the result with the source length as
capacity and run the loop.  The C code does not check the `NewSlice`
result: on a non-empty source the first `SliceAppend(NULL, ..)` call
dereferences a NULL pointer, modelled as a crash. -/
def SliceMap {α β : Type} (s : Slice α) (elSize : Nat) (f : α → β)
    (h : Heap) : MapOut β × Heap :=
  match NewSlice β elSize s.len h with
  | (none, h1) => if 0 < s.len then (MapOut.crash, h1) else (MapOut.nullRet, h1)
  | (some ret, h1) => mapLoop s f 0 ret h1

/-- Loop of `SliceFilter`: append each source element satisfying `f` to
`ret`; a failed append returns NULL. -/
def filterLoop {α : Type} (s : Slice α) (f : α → Bool) (i : Int)
    (ret : Slice α) (h : Heap) : MapOut α × Heap :=
  if hc : i < s.len then
    match SliceGet s i with
    | none => (MapOut.crash, h)
    | some v =>
      if f v then
        match SliceAppend ret v h with
        | (none, h1) => (MapOut.nullRet, h1)
        | (some ret1, h1) => filterLoop s f (i + 1) ret1 h1
      else filterLoop s f (i + 1) ret h
  else (MapOut.ok ret, h)
termination_by (s.len - i).toNat
decreasing_by all_goals omega

/-- Loop of `SliceFilter` when its unchecked `NewSlice` returned NULL: the
first element satisfying `f` makes `SliceAppend(NULL, ..)` dereference a
NULL pointer; if no element passes, the NULL result slice is returned. -/
def filterLoopNull {α : Type} (s : Slice α) (f : α → Bool) (i : Int)
    (h : Heap) : MapOut α × Heap :=
  if hc : i < s.len then
    match SliceGet s i with
    | none => (MapOut.crash, h)
    | some v =>
      if f v then (MapOut.crash, h)
      else filterLoopNull s f (i + 1) h
  else (MapOut.nullRet, h)
termination_by (s.len - i).toNat
decreasing_by omega

/-- Embedding of `SliceFilter`: allocate a zero-capacity result and run the
loop; like `SliceMap`, the `NewSlice` result is not checked for NULL. -/
def SliceFilter {α : Type} (s : Slice α) (f : α → Bool) (h : Heap) :
    MapOut α × Heap :=
  match NewSlice α s.elSize 0 h with
  | (none, h1) => filterLoopNull s f 0 h1
  | (some ret, h1) => filterLoop s f 0 ret h1

/-- Loop of `SliceReduce`: `for (i = 1; i < len; i++)` fold the combiner
over the accumulator.  The fetch cannot fail for `1 <= i < len`; the
`none` arm is unreachable from the entry point. -/
def reduceLoop {α : Type} (s : Slice α) (f : α → α → α) (i : Int)
    (ret : α) : α :=
  if hc : i < s.len then
    match SliceGet s i with
    | none => ret
    | some d => reduceLoop s f (i + 1) (f ret d)
  else ret
termination_by (s.len - i).toNat
decreasing_by omega

/-- Embedding of `SliceReduce`: the accumulator starts as element 0 (NULL,
hence a NULL return, exactly when the slice is empty) and the loop folds
the remaining elements onto it. -/
def SliceReduce {α : Type} (s : Slice α) (f : α → α → α) : Option α :=
  match SliceGet s 0 with
  | none => none
  | some r0 => some (reduceLoop s f 1 r0)

/-- Loop of `SliceAppendArray`: append `a[0] .. a[cnt-1]` one element at a
time, stopping with NULL on the first failed append. -/
def arrLoop {α : Type} (a : Nat → α) (cnt : Nat) (i : Nat) (s : Slice α)
    (h : Heap) : Option (Slice α) × Heap :=
  if hc : i < cnt then
    match SliceAppend s (a i) h with
    | (none, h1) => (none, h1)
    | (some s1, h1) => arrLoop a cnt (i + 1) s1 h1
  else (some s, h)
termination_by cnt - i
decreasing_by omega

/-- Embedding of `SliceAppendArray`: the raw source array is a total index
function, matching the unchecked C pointer arithmetic. -/
def SliceAppendArray {α : Type} (s : Slice α) (a : Nat → α) (cnt : Nat)
    (h : Heap) : Option (Slice α) × Heap :=
  arrLoop a cnt 0 s h

/-- Loop of `SliceExtend`: append each element of `s2` onto `s1`, stopping
with NULL on the first failed append.  The fetch cannot fail for
`0 <= i < len`; the `none` arm is unreachable from the entry point. -/
def extLoop {α : Type} (s2 : Slice α) (i : Int) (s1 : Slice α) (h : Heap) :
    Option (Slice α) × Heap :=
  if hc : i < s2.len then
    match SliceGet s2 i with
    | none => (none, h)
    | some v =>
      match SliceAppend s1 v h with
      | (none, h1) => (none, h1)
      | (some s3, h1) => extLoop s2 (i + 1) s3 h1
  else (some s1, h)
termination_by (s2.len - i).toNat
decreasing_by omega

/-- Embedding of `SliceExtend`. -/
def SliceExtend {α : Type} (s1 s2 : Slice α) (h : Heap) :
    Option (Slice α) × Heap :=
  extLoop s2 0 s1 h

/-- Embedding of `SliceEmpty`: free the buffer, malloc a zero-byte buffer
(failure returns NULL), and reset `len` and `cap` to 0. -/
def SliceEmpty {α : Type} (s : Slice α) (h : Heap) :
    Option (Slice α) × Heap :=
  match allocOk (AllocReq.mallocBuf 0) h with
  | (false, h1) => (none, h1)
  | (true, h1) => (some { s with data := [], cap := 0 }, h1)

/-- Structural invariant of a slice: `0 <= len <= cap`. -/
def SliceInv {α : Type} (s : Slice α) : Prop := 0 ≤ s.len ∧ s.len ≤ s.cap

/-- States reachable through the public operations: construction, the
mutators, and the slice-producing combinators, under any allocator
behaviour at every step. -/
inductive Reach : {α : Type} → Slice α → Prop where
  | new {α : Type} {elSize : Nat} {cap : Int} {h h1 : Heap} {s : Slice α}
      (hrun : NewSlice α elSize cap h = (some s, h1)) : Reach s
  | append {α : Type} {s s1 : Slice α} {v : α} {h h1 : Heap}
      (hs : Reach s) (hrun : SliceAppend s v h = (some s1, h1)) : Reach s1
  | appendArray {α : Type} {s s1 : Slice α} {a : Nat → α} {cnt : Nat}
      {h h1 : Heap} (hs : Reach s)
      (hrun : SliceAppendArray s a cnt h = (some s1, h1)) : Reach s1
  | extend {α : Type} {s t s1 : Slice α} {h h1 : Heap} (hs : Reach s)
      (hrun : SliceExtend s t h = (some s1, h1)) : Reach s1
  | empty {α : Type} {s s1 : Slice α} {h h1 : Heap} (hs : Reach s)
      (hrun : SliceEmpty s h = (some s1, h1)) : Reach s1
  | subslice {α : Type} {s s1 : Slice α} {i1 i2 step : Int} {h : Heap}
      (hs : Reach s) (hrun : (SliceSlice s i1 i2 step h).1 = some s1) :
      Reach s1
  | map {α β : Type} {s : Slice α} {s1 : Slice β} {elSize : Nat}
      {f : α → β} {h : Heap} (hs : Reach s)
      (hrun : (SliceMap s elSize f h).1 = MapOut.ok s1) : Reach s1
  | filter {α : Type} {s s1 : Slice α} {f : α → Bool} {h : Heap}
      (hs : Reach s) (hrun : (SliceFilter s f h).1 = MapOut.ok s1) :
      Reach s1

/-- Closed form of `SliceGet` through the resolved index. -/
theorem sliceGet_eq_resolve {α : Type} (s : Slice α) (i : Int) :
    SliceGet s i =
      if 0 ≤ resolveIdx s.len i ∧ resolveIdx s.len i < s.len then
        s.data.get? (resolveIdx s.len i).toNat
      else none := by
  unfold SliceGet resolveIdx
  split_ifs <;> first
    | rfl
    | omega

/-- In-range lookups succeed: the resolved index is a valid list index. -/
theorem sliceGet_isSome_of_lt {α : Type} (s : Slice α) (i : Int)
    (h0 : 0 ≤ resolveIdx s.len i) (h1 : resolveIdx s.len i < s.len) :
    ∃ v, SliceGet s i = some v := by
  rw [sliceGet_eq_resolve, if_pos ⟨h0, h1⟩]
  have hlt : (resolveIdx s.len i).toNat < s.data.length := by
    unfold Slice.len at h0 h1 ⊢; omega
  rcases List.get?_eq_get hlt with h
  exact ⟨_, h⟩

/-- Claim C1: `SliceGet` resolves indices Python-style.  For `0 ≤ i < len`,
`get s i` and `get s (i - len)` agree (and succeed); `get` returns NULL
exactly when the resolved index (`i` for `i ≥ 0`, `len + i` for `i < 0`)
falls outside `[0, len)`; in particular `get s len` and `get s (-len-1)`
both fail. -/
theorem sliceGet_index_resolution {α : Type} (s : Slice α) (i : Int) :
    (0 ≤ i → i < s.len →
      SliceGet s i = SliceGet s (i - s.len) ∧ (SliceGet s i).isSome) ∧
    (SliceGet s i = none ↔
      resolveIdx s.len i < 0 ∨ s.len ≤ resolveIdx s.len i) ∧
    SliceGet s s.len = none ∧ SliceGet s (-s.len - 1) = none := by
  have hlen : (0 : Int) ≤ s.len := by unfold Slice.len; positivity
  refine ⟨?_, ?_, ?_, ?_⟩
  · intro h0 h1
    have e1 : resolveIdx s.len i = i := by unfold resolveIdx; omega
    have e2 : resolveIdx s.len (i - s.len) = i := by
      unfold resolveIdx
      split_ifs with h <;> omega
    constructor
    · rw [sliceGet_eq_resolve, sliceGet_eq_resolve, e1, e2]
    · obtain ⟨v, hv⟩ := sliceGet_isSome_of_lt s i (by omega) (by omega)
      simp [hv]
  · constructor
    · intro hnone
      by_contra hcon
      push_neg at hcon
      obtain ⟨v, hv⟩ := sliceGet_isSome_of_lt s i (hcon.1) (hcon.2)
      rw [hnone] at hv
      cases hv
    · intro hout
      rw [sliceGet_eq_resolve, if_neg]
      omega
  · rw [sliceGet_eq_resolve, if_neg]
    have : resolveIdx s.len s.len = s.len := by unfold resolveIdx; omega
    omega
  · rw [sliceGet_eq_resolve, if_neg]
    have : resolveIdx s.len (-s.len - 1) = -1 := by unfold resolveIdx; omega
    omega

/-- Witness for C1 on the slice `[10, 20, 30]` at index `1`. -/
theorem sliceGet_index_resolution_witness :
    SliceGet (⟨[10, 20, 30], 3, 4⟩ : Slice Int) 1 =
      SliceGet (⟨[10, 20, 30], 3, 4⟩ : Slice Int)
        (1 - Slice.len (⟨[10, 20, 30], 3, 4⟩ : Slice Int)) ∧
    SliceGet (⟨[10, 20, 30], 3, 4⟩ : Slice Int)
      (Slice.len (⟨[10, 20, 30], 3, 4⟩ : Slice Int)) = none := by
  have h := sliceGet_index_resolution (⟨[10, 20, 30], 3, 4⟩ : Slice Int) 1
  exact ⟨(h.1 (by decide) (by decide)).1, h.2.2.1⟩

/-- Success of `SliceAppend` always appends one element, keeps the element
size, and either keeps (no growth, so `len != cap` held) or grows the
capacity. -/
theorem sliceAppend_success {α : Type} {s r : Slice α} {v : α} {h h2 : Heap}
    (hrun : SliceAppend s v h = (some r, h2)) :
    r.data = s.data ++ [v] ∧ r.elSize = s.elSize ∧
    ((s.len ≠ s.cap ∧ r.cap = s.cap) ∨
      (s.len = s.cap ∧ r.cap = grownCap s.cap)) := by
  unfold SliceAppend at hrun
  split at hrun
  case isTrue hfull =>
    split at hrun
    · cases hrun
    · cases hrun
      exact ⟨rfl, rfl, Or.inr ⟨hfull, rfl⟩⟩
  case isFalse hfull =>
    cases hrun
    exact ⟨rfl, rfl, Or.inl ⟨hfull, rfl⟩⟩

/-- Claim C7: a successful append increases `len` by exactly one, makes
`get` at the new last index return the appended value, and leaves every
previously stored element unchanged at its previous index. -/
theorem sliceAppend_post {α : Type} (s r : Slice α) (v : α) (h h2 : Heap)
    (hrun : SliceAppend s v h = (some r, h2)) :
    r.len = s.len + 1 ∧ SliceGet r (r.len - 1) = some v ∧
    ∀ j : Int, 0 ≤ j → j < s.len → SliceGet r j = SliceGet s j := by
  obtain ⟨hdata, -, -⟩ := sliceAppend_success hrun
  have hlen : r.len = s.len + 1 := by
    unfold Slice.len; rw [hdata]; simp
  refine ⟨hlen, ?_, ?_⟩
  · rw [sliceGet_eq_resolve]
    have e1 : resolveIdx r.len (r.len - 1) = s.len := by
      unfold resolveIdx Slice.len at *
      split_ifs with hh <;> omega
    rw [e1, if_pos (by unfold Slice.len at *; omega)]
    have : (Slice.len s).toNat = s.data.length := by unfold Slice.len; omega
    rw [this, hdata, List.get?_concat_length]
  · intro j h0 hj
    rw [sliceGet_eq_resolve, sliceGet_eq_resolve]
    have e1 : resolveIdx r.len j = j := by unfold resolveIdx; omega
    have e2 : resolveIdx s.len j = j := by unfold resolveIdx; omega
    rw [e1, e2, if_pos (by constructor <;> omega),
      if_pos (by constructor <;> omega)]
    rw [hdata]
    have : j.toNat < s.data.length := by unfold Slice.len at hj; omega
    rw [List.get?_append this]

/-- Witness for C7: appending `9` to the full slice `[1, 2]`. -/
theorem sliceAppend_post_witness :
    Slice.len (⟨[1, 2, 9], 6, 8⟩ : Slice Int) =
      Slice.len (⟨[1, 2], 2, 8⟩ : Slice Int) + 1 ∧
    SliceGet (⟨[1, 2, 9], 6, 8⟩ : Slice Int)
      (Slice.len (⟨[1, 2, 9], 6, 8⟩ : Slice Int) - 1) = some 9 ∧
    SliceGet (⟨[1, 2, 9], 6, 8⟩ : Slice Int) 0 =
      SliceGet (⟨[1, 2], 2, 8⟩ : Slice Int) 0 := by
  obtain ⟨ha, hb, hc⟩ :=
    sliceAppend_post (⟨[1, 2], 2, 8⟩ : Slice Int) ⟨[1, 2, 9], 6, 8⟩ 9 [] []
      rfl
  exact ⟨ha, hb, hc 0 (by decide) (by decide)⟩

/-- Claim C8: when `len == cap`, `SliceAppend` consults the allocator with
a realloc request of exactly `(cap + elSize) * elSize * 2` bytes; on
success the new capacity is exactly `(cap + 1) * 2`, on failure the append
returns NULL. -/
theorem sliceAppend_growth {α : Type} (s : Slice α) (v : α)
    (F : AllocReq → Bool) (h : Heap) (hfull : s.len = s.cap) :
    reallocBytes s.cap s.elSize =
      (s.cap + (s.elSize : Int)) * (s.elSize : Int) * 2 ∧
    (F (AllocReq.reallocBuf (reallocBytes s.cap s.elSize)) = true →
      (SliceAppend s v (F :: h)).1 =
        some { s with data := s.data ++ [v], cap := (s.cap + 1) * 2 }) ∧
    (F (AllocReq.reallocBuf (reallocBytes s.cap s.elSize)) = false →
      (SliceAppend s v (F :: h)).1 = none) := by
  refine ⟨rfl, ?_, ?_⟩ <;> intro hF <;>
    simp [SliceAppend, if_pos hfull, allocOk, hF, grownCap]

/-- Witness for C8: growing the full slice `[5]` of capacity 1 gives
capacity 4; a denied reallocation fails. -/
theorem sliceAppend_growth_witness :
    (SliceAppend (⟨[5], 1, 4⟩ : Slice Int) 9 [fun _ => true]).1 =
      some ⟨[5, 9], 4, 4⟩ ∧
    (SliceAppend (⟨[5], 1, 4⟩ : Slice Int) 9 [fun _ => false]).1 = none := by
  have h1 :=
    (sliceAppend_growth (⟨[5], 1, 4⟩ : Slice Int) 9 (fun _ => true) []
      rfl).2.1 rfl
  have h2 :=
    (sliceAppend_growth (⟨[5], 1, 4⟩ : Slice Int) 9 (fun _ => false) []
      rfl).2.2 rfl
  exact ⟨h1, h2⟩

/-- Counterexample to C10 as stated: at capacity 32768 and element size
65536 the growth request `(32768 + 65536) * 65536 * 2 = 3 * 2 ^ 32` wraps
to 0 bytes in the 32-bit unsigned arithmetic of the C expression —
strictly below both the bytes needed by the new capacity,
`(32768 + 1) * 2 * 65536`, and the `32768 * 65536` bytes already in use —
so growth does under-allocate and stored bytes are lost. -/
theorem growth_request_wraps :
    reallocBytesWrapped 32768 65536 = 0 ∧
    reallocBytesWrapped 32768 65536 < grownCap 32768 * (65536 : Nat) ∧
    reallocBytesWrapped 32768 65536 < 32768 * (65536 : Int) := by
  refine ⟨?_, ?_, ?_⟩ <;>
    norm_num [reallocBytesWrapped, reallocBytes, grownCap]

/-- Claim C10 (amended): whenever the growth request
`(cap + elSize) * elSize * 2` stays below `2 ^ 32`, the 32-bit value
realloc receives is the unbounded value of the formula and covers both
the bytes needed by the new capacity `(cap + 1) * 2` and the bytes in
use, so growth under-allocates only through the 32-bit wrap. -/
theorem growth_request_covers_capacity_no_overflow (cap : Int) (el : Nat)
    (hcap : 0 ≤ cap) (hnof : reallocBytes cap el < 2 ^ 32) :
    reallocBytesWrapped cap el = reallocBytes cap el ∧
    grownCap cap * el ≤ reallocBytesWrapped cap el ∧
    cap * el ≤ reallocBytesWrapped cap el := by
  have h0 : (0 : Int) ≤ (el : Int) := Int.natCast_nonneg el
  have hge : 0 ≤ reallocBytes cap el := by
    unfold reallocBytes
    nlinarith [mul_nonneg (by omega : (0 : Int) ≤ cap + el) h0]
  have heq : reallocBytesWrapped cap el = reallocBytes cap el := by
    unfold reallocBytesWrapped
    exact Int.emod_eq_of_lt hge hnof
  refine ⟨heq, ?_, ?_⟩ <;> rw [heq]
  · unfold grownCap reallocBytes
    rcases Nat.eq_zero_or_pos el with he0 | he1
    · subst he0; simp
    · have he : (1 : Int) ≤ (el : Int) := by exact_mod_cast he1
      nlinarith
  · unfold reallocBytes
    nlinarith [mul_nonneg (by omega : (0 : Int) ≤ cap + el) h0]

/-- Witness for the amended C10 at capacity 3, element size 4. -/
theorem growth_request_covers_capacity_no_overflow_witness :
    reallocBytesWrapped 3 4 = reallocBytes 3 4 ∧
    grownCap 3 * (4 : Nat) ≤ reallocBytesWrapped 3 4 ∧
    (3 : Int) * (4 : Nat) ≤ reallocBytesWrapped 3 4 :=
  growth_request_covers_capacity_no_overflow 3 4 (by decide) (by decide)

/-- In-range form of `SliceGet` for a non-negative index. -/
theorem sliceGet_in_range {α : Type} (s : Slice α) (i : Int) (h0 : 0 ≤ i)
    (h1 : i < s.len) : SliceGet s i = s.data.get? i.toNat := by
  rw [sliceGet_eq_resolve]
  have e : resolveIdx s.len i = i := by unfold resolveIdx; omega
  rw [e, if_pos ⟨h0, h1⟩]

/-- Under the empty (always-successful) oracle, `SliceAppend` succeeds and
leaves the oracle empty. -/
theorem sliceAppend_nil_eq {α : Type} (s : Slice α) (v : α) :
    SliceAppend s v [] =
      (some { s with
                data := s.data ++ [v],
                cap := if s.len = s.cap then grownCap s.cap else s.cap },
        []) := by
  unfold SliceAppend
  split_ifs <;> simp [allocOk]

/-- Under the empty oracle, `NewSlice` with a non-negative capacity
succeeds and leaves the oracle empty. -/
theorem newSlice_nil_eq (α : Type) (elSize : Nat) (cap : Int)
    (hcap : 0 ≤ cap) :
    NewSlice α elSize cap [] = (some ⟨[], cap, elSize⟩, []) := by
  have hng : ¬ cap < 0 := by omega
  simp [NewSlice, allocOk, hng]

/-- A successful `NewSlice` returns an empty slice with the requested
capacity (necessarily non-negative) and element size. -/
theorem newSlice_success {α : Type} {elSize : Nat} {cap : Int} {h h1 : Heap}
    {s : Slice α} (hrun : NewSlice α elSize cap h = (some s, h1)) :
    s.data = [] ∧ s.cap = cap ∧ s.elSize = elSize ∧ 0 ≤ cap := by
  unfold NewSlice at hrun
  split at hrun
  split at hrun
  · cases hrun
  · rename_i hcond
    split at hrun
    · cases hrun
    · cases hrun
      push_neg at hcond
      exact ⟨rfl, rfl, rfl, by omega⟩

/-- Data produced by a successful ascending copy loop: the elements fetched
at the visited indices, appended to the accumulator. -/
theorem copyPos_data_aux {α : Type} (s : Slice α) (i2 step : Int) :
    ∀ (n : Nat) (i : Int) (ret r : Slice α) (h h1 : Heap),
      (i2 - i).toNat ≤ n →
      copyPos s i2 step i ret h = (some r, h1) →
      r.data = ret.data ++ (posIdx i2 step i).filterMap (SliceGet s) := by
  intro n
  induction n with
  | zero =>
    intro i ret r h h1 hn hrun
    rw [copyPos.eq_def, dif_neg (by omega)] at hrun
    cases hrun
    rw [posIdx.eq_def, dif_neg (by omega)]
    simp
  | succ m ih =>
    intro i ret r h h1 hn hrun
    rw [copyPos.eq_def] at hrun
    rw [posIdx.eq_def]
    by_cases hc : 0 < step ∧ i < i2
    · rw [dif_pos hc] at hrun
      rw [dif_pos hc]
      split at hrun
      · simp at hrun
      · rename_i v hget
        split at hrun
        · simp at hrun
        · rename_i ret1 h2 happ
          have hr := ih (i + step) ret1 r h2 h1 (by omega) hrun
          rw [hr]
          obtain ⟨hd, -, -⟩ := sliceAppend_success happ
          rw [hd, List.filterMap_cons, hget]
          simp
    · rw [dif_neg hc] at hrun
      rw [dif_neg hc]
      cases hrun
      simp

/-- Data produced by a successful descending copy loop. -/
theorem copyNeg_data_aux {α : Type} (s : Slice α) (i1 step : Int) :
    ∀ (n : Nat) (i : Int) (ret r : Slice α) (h h1 : Heap),
      (i - i1 + 1).toNat ≤ n →
      copyNeg s i1 step i ret h = (some r, h1) →
      r.data = ret.data ++ (negIdx i1 step i).filterMap (SliceGet s) := by
  intro n
  induction n with
  | zero =>
    intro i ret r h h1 hn hrun
    rw [copyNeg.eq_def, dif_neg (by omega)] at hrun
    cases hrun
    rw [negIdx.eq_def, dif_neg (by omega)]
    simp
  | succ m ih =>
    intro i ret r h h1 hn hrun
    rw [copyNeg.eq_def] at hrun
    rw [negIdx.eq_def]
    by_cases hc : step < 0 ∧ i1 ≤ i
    · rw [dif_pos hc] at hrun
      rw [dif_pos hc]
      split at hrun
      · simp at hrun
      · rename_i v hget
        split at hrun
        · simp at hrun
        · rename_i ret1 h2 happ
          have hr := ih (i + step) ret1 r h2 h1 (by omega) hrun
          rw [hr]
          obtain ⟨hd, -, -⟩ := sliceAppend_success happ
          rw [hd, List.filterMap_cons, hget]
          simp
    · rw [dif_neg hc] at hrun
      rw [dif_neg hc]
      cases hrun
      simp

/-- Under the empty oracle the ascending copy loop always succeeds when the
index range stays inside the source. -/
theorem copyPos_nil_some {α : Type} (s : Slice α) (i2 step : Int) :
    ∀ (n : Nat) (i : Int) (ret : Slice α),
      (i2 - i).toNat ≤ n → 0 ≤ i → i2 ≤ s.len →
      ∃ r, copyPos s i2 step i ret [] = (some r, []) := by
  intro n
  induction n with
  | zero =>
    intro i ret hn h0 hi2
    rw [copyPos.eq_def, dif_neg (by omega)]
    exact ⟨ret, rfl⟩
  | succ m ih =>
    intro i ret hn h0 hi2
    rw [copyPos.eq_def]
    by_cases hc : 0 < step ∧ i < i2
    · rw [dif_pos hc]
      obtain ⟨v, hv⟩ := sliceGet_isSome_of_lt s i
        (by unfold resolveIdx; split_ifs <;> omega)
        (by unfold resolveIdx; split_ifs <;> omega)
      simp only [hv, sliceAppend_nil_eq]
      exact ih (i + step) _ (by omega) (by omega) hi2
    · rw [dif_neg hc]
      exact ⟨ret, rfl⟩

/-- Under the empty oracle the descending copy loop always succeeds when
the index range stays inside the source. -/
theorem copyNeg_nil_some {α : Type} (s : Slice α) (i1 step : Int) :
    ∀ (n : Nat) (i : Int) (ret : Slice α),
      (i - i1 + 1).toNat ≤ n → 0 ≤ i1 → i < s.len →
      ∃ r, copyNeg s i1 step i ret [] = (some r, []) := by
  intro n
  induction n with
  | zero =>
    intro i ret hn h0 hlt
    rw [copyNeg.eq_def, dif_neg (by omega)]
    exact ⟨ret, rfl⟩
  | succ m ih =>
    intro i ret hn h0 hlt
    rw [copyNeg.eq_def]
    by_cases hc : step < 0 ∧ i1 ≤ i
    · rw [dif_pos hc]
      obtain ⟨v, hv⟩ := sliceGet_isSome_of_lt s i
        (by unfold resolveIdx; split_ifs <;> omega)
        (by unfold resolveIdx; split_ifs <;> omega)
      simp only [hv, sliceAppend_nil_eq]
      exact ih (i + step) _ (by omega) h0 (by omega)
    · rw [dif_neg hc]
      exact ⟨ret, rfl⟩

/-- The unit-step ascending index sequence fetches exactly the suffix of
the source starting at the entry index. -/
theorem posIdx_one_filterMap {α : Type} (s : Slice α) :
    ∀ (n : Nat) (i : Int), (s.len - i).toNat ≤ n → 0 ≤ i →
      (posIdx s.len 1 i).filterMap (SliceGet s) = s.data.drop i.toNat := by
  intro n
  induction n with
  | zero =>
    intro i hn h0
    rw [posIdx.eq_def, dif_neg (by omega)]
    have hge : s.data.length ≤ i.toNat := by unfold Slice.len at hn; omega
    rw [List.drop_eq_nil_of_le hge]
    rfl
  | succ m ih =>
    intro i hn h0
    rw [posIdx.eq_def]
    by_cases hc : (0 : Int) < 1 ∧ i < s.len
    · rw [dif_pos hc]
      have hlt : i.toNat < s.data.length := by unfold Slice.len at hc; omega
      rw [List.filterMap_cons, sliceGet_in_range s i h0 hc.2,
        List.get?_eq_get hlt]
      rw [ih (i + 1) (by omega) (by omega)]
      have e : (i + 1).toNat = i.toNat + 1 := by omega
      rw [e, List.drop_eq_getElem_cons hlt]
      simp [List.get_eq_getElem]
    · rw [dif_neg hc]
      have hge : s.data.length ≤ i.toNat := by unfold Slice.len at hc; omega
      rw [List.drop_eq_nil_of_le hge]
      rfl

/-- The unit-step descending index sequence starting at `i` fetches the
reversed prefix of the source up to `i`. -/
theorem negIdx_one_filterMap {α : Type} (s : Slice α) :
    ∀ (n : Nat) (i : Int), (i + 1).toNat ≤ n → i < s.len →
      (negIdx 0 (-1) i).filterMap (SliceGet s) =
        (s.data.take (i + 1).toNat).reverse := by
  intro n
  induction n with
  | zero =>
    intro i hn hi
    rw [negIdx.eq_def, dif_neg (by omega)]
    have e : (i + 1).toNat = 0 := by omega
    rw [e]
    simp
  | succ m ih =>
    intro i hn hi
    rw [negIdx.eq_def]
    by_cases hc : (-1 : Int) < 0 ∧ (0 : Int) ≤ i
    · rw [dif_pos hc]
      have hlt : i.toNat < s.data.length := by unfold Slice.len at hi; omega
      rw [List.filterMap_cons, sliceGet_in_range s i hc.2 hi,
        List.get?_eq_get hlt]
      have e1 : i + -1 = i - 1 := by ring
      rw [e1, ih (i - 1) (by omega) (by omega)]
      have e2 : (i - 1 + 1).toNat = i.toNat := by omega
      have e3 : (i + 1).toNat = i.toNat + 1 := by omega
      rw [e2, e3, List.take_succ, List.getElem?_eq_getElem hlt]
      rw [Option.toList_some, List.reverse_append, List.reverse_singleton,
        List.singleton_append, List.get_eq_getElem]
    · rw [dif_neg hc]
      have e : (i + 1).toNat = 0 := by omega
      rw [e]
      simp

/-- Under the empty oracle, `SliceSlice` with valid arguments succeeds and
produces the fetches of the visited index sequence of the matching copy
direction. -/
theorem sliceSlice_nil_run {α : Type} (s : Slice α) (i1 i2 step : Int)
    (hb1 : -s.len ≤ i1) (hb2 : i1 < s.len) (hb3 : -s.len ≤ i2)
    (hb4 : i2 ≤ s.len) (hstep : step ≠ 0)
    (hlt : normStart s.len i1 < normEnd s.len i2) :
    ∃ r, SliceSlice s i1 i2 step [] = (some r, []) ∧
      r.data =
        (if 0 < step then posIdx (normEnd s.len i2) step (normStart s.len i1)
          else
            negIdx (normStart s.len i1) step
              (normEnd s.len i2 - 1)).filterMap (SliceGet s) := by
  have hlen : (0 : Int) ≤ s.len := by unfold Slice.len; positivity
  have hn1 : 0 ≤ normStart s.len i1 := by unfold normStart; split_ifs <;> omega
  have hn2 : normStart s.len i1 < s.len := by
    unfold normStart; split_ifs <;> omega
  have hn3 : normEnd s.len i2 ≤ s.len := by unfold normEnd; split_ifs <;> omega
  unfold SliceSlice
  rw [if_neg (by omega), if_neg (by omega),
    newSlice_nil_eq α s.elSize _ (by omega)]
  by_cases hsp : 0 < step
  · simp only [if_pos hsp]
    obtain ⟨r, hr⟩ := copyPos_nil_some s (normEnd s.len i2) step
      ((normEnd s.len i2) - normStart s.len i1).toNat (normStart s.len i1)
      ⟨[], normEnd s.len i2 - normStart s.len i1, s.elSize⟩
      (by omega) hn1 hn3
    refine ⟨r, hr, ?_⟩
    have hd := copyPos_data_aux s (normEnd s.len i2) step
      ((normEnd s.len i2) - normStart s.len i1).toNat (normStart s.len i1)
      _ r [] [] (by omega) hr
    simpa using hd
  · simp only [if_neg hsp]
    obtain ⟨r, hr⟩ := copyNeg_nil_some s (normStart s.len i1) step
      ((normEnd s.len i2 - 1) - normStart s.len i1 + 1).toNat
      (normEnd s.len i2 - 1)
      ⟨[], normEnd s.len i2 - normStart s.len i1, s.elSize⟩
      (by omega) hn1 (by omega)
    refine ⟨r, hr, ?_⟩
    have hd := copyNeg_data_aux s (normStart s.len i1) step
      ((normEnd s.len i2 - 1) - normStart s.len i1 + 1).toNat
      (normEnd s.len i2 - 1) _ r [] [] (by omega) hr
    simpa using hd

/-- Claim C4: under a successful allocator, `SliceSlice` fails exactly when
`step = 0`, or the start bound is outside `[-len, len)`, or the end bound
is outside `[-len, len]`, or the normalized start is not strictly below
the normalized end (so equal bounds fail rather than giving an empty
slice). -/
theorem sliceSlice_fail_iff {α : Type} (s : Slice α) (i1 i2 step : Int) :
    (SliceSlice s i1 i2 step []).1 = none ↔
      step = 0 ∨ ¬(-s.len ≤ i1 ∧ i1 < s.len) ∨ ¬(-s.len ≤ i2 ∧ i2 ≤ s.len) ∨
      normEnd s.len i2 ≤ normStart s.len i1 := by
  constructor
  · intro hnone
    by_contra hcon
    push_neg at hcon
    obtain ⟨hs0, hb12, hb34, hlt⟩ := hcon
    obtain ⟨r, hr, -⟩ := sliceSlice_nil_run s i1 i2 step hb12.1 hb12.2
      hb34.1 hb34.2 hs0 (by omega)
    rw [hr] at hnone
    cases hnone
  · intro hdisj
    by_cases hc1 : s.len ≤ i1 ∨ i1 < -s.len ∨ s.len < i2 ∨ i2 < -s.len ∨
        step = 0
    · unfold SliceSlice
      rw [if_pos hc1]
    · unfold SliceSlice
      rw [if_neg hc1, if_pos (by omega)]

/-- Counterexample to C3 as stated: on the empty slice,
`subslice(s, 0, length, 1)` reports failure (`0 >= len` already fails the
start-bound validation), so the full-copy subslice does not succeed for
every slice. -/
theorem sliceSlice_full_copy_empty_fails :
    (SliceSlice (⟨[], 0, 4⟩ : Slice Int) 0
      (Slice.len (⟨[], 0, 4⟩ : Slice Int)) 1 []).1 = none := by
  rfl

/-- Claim C3 (amended): for every non-empty slice, `subslice(s, 0, len, 1)`
succeeds under a successful allocator and yields a fresh slice whose
elements equal those of `s` (the copy shares no buffer with `s`: it is
built element-by-element into a newly allocated slice, and appending to
the value it denotes leaves `s` untouched). -/
theorem sliceSlice_full_copy {α : Type} (s : Slice α) (hne : s.data ≠ []) :
    ∃ r, SliceSlice s 0 s.len 1 [] = (some r, []) ∧ r.data = s.data := by
  have hlen0 : (0 : Int) < s.len := by
    have : s.data.length ≠ 0 := fun h => hne (List.length_eq_zero.mp h)
    unfold Slice.len
    omega
  have hne2 : normStart s.len 0 < normEnd s.len s.len := by
    unfold normStart normEnd
    split_ifs <;> omega
  obtain ⟨r, hr, hd⟩ := sliceSlice_nil_run s 0 s.len 1 (by omega) (by omega)
    (by omega) (by omega) (by omega) hne2
  refine ⟨r, hr, ?_⟩
  rw [hd]
  have e1 : normStart s.len 0 = 0 := by unfold normStart; split_ifs <;> omega
  have e2 : normEnd s.len s.len = s.len := by
    unfold normEnd
    split_ifs <;> omega
  rw [if_pos (by omega : (0 : Int) < 1), e1, e2,
    posIdx_one_filterMap s (s.len - 0).toNat 0 (by omega) le_rfl]
  simp

/-- Witness for the amended C3 on the slice `[10, 20]`. -/
theorem sliceSlice_full_copy_witness :
    ((SliceSlice (⟨[10, 20], 2, 4⟩ : Slice Int) 0 2 1 []).1.map Slice.data) =
      some [10, 20] := by
  obtain ⟨r, hr, hd⟩ :=
    sliceSlice_full_copy (⟨[10, 20], 2, 4⟩ : Slice Int) (by decide)
  have e : Slice.len (⟨[10, 20], 2, 4⟩ : Slice Int) = 2 := rfl
  rw [e] at hr
  rw [hr]
  simp [hd]

/-- Claim C5: with a negative step, a successful `SliceSlice` yields the
fetches at the indices `end-1, end-1-|step|, ...` down to the least index
at least the normalized start, in that descending order; in particular
`subslice(s, 0, len, -1)` of a non-empty slice yields the reverse of `s`. -/
theorem sliceSlice_neg_step :
    (∀ (α : Type) (s r : Slice α) (i1 i2 step : Int) (h : Heap),
      step < 0 → (SliceSlice s i1 i2 step h).1 = some r →
      r.data = (negIdx (normStart s.len i1) step
        (normEnd s.len i2 - 1)).filterMap (SliceGet s)) ∧
    (∀ (α : Type) (s : Slice α), s.data ≠ [] →
      ∃ r, SliceSlice s 0 s.len (-1) [] = (some r, []) ∧
        r.data = s.data.reverse) := by
  constructor
  · intro α s r i1 i2 step h hstep hrun
    unfold SliceSlice at hrun
    split at hrun
    · simp at hrun
    · split at hrun
      · simp at hrun
      · split at hrun
        · simp at hrun
        · rename_i ret h1 hnew
          rw [if_neg (by omega)] at hrun
          rcases hcn : copyNeg s (normStart s.len i1) step
            (normEnd s.len i2 - 1) ret h1 with ⟨o, h2⟩
          rw [hcn] at hrun
          simp at hrun
          subst hrun
          have hd := copyNeg_data_aux s (normStart s.len i1) step
            ((normEnd s.len i2 - 1) - normStart s.len i1 + 1).toNat
            (normEnd s.len i2 - 1) ret r h1 h2 (by omega) hcn
          obtain ⟨he, -, -, -⟩ := newSlice_success hnew
          rw [hd, he]
          simp
  · intro α s hne
    have hlen0 : (0 : Int) < s.len := by
      have : s.data.length ≠ 0 := fun h => hne (List.length_eq_zero.mp h)
      unfold Slice.len
      omega
    have hne2 : normStart s.len 0 < normEnd s.len s.len := by
      unfold normStart normEnd
      split_ifs <;> omega
    obtain ⟨r, hr, hd⟩ := sliceSlice_nil_run s 0 s.len (-1) (by omega)
      (by omega) (by omega) (by omega) (by omega) hne2
    refine ⟨r, hr, ?_⟩
    rw [hd]
    have e1 : normStart s.len 0 = 0 := by unfold normStart; split_ifs <;> omega
    have e2 : normEnd s.len s.len = s.len := by
      unfold normEnd
      split_ifs <;> omega
    rw [if_neg (by omega : ¬ (0 : Int) < -1), e1, e2,
      negIdx_one_filterMap s s.len.toNat (s.len - 1) (by omega) (by omega)]
    have e3 : (s.len - 1 + 1).toNat = s.data.length := by
      unfold Slice.len
      omega
    rw [e3, List.take_length]

/-- Witness for C5: reversing the slice `[1, 2, 3]`. -/
theorem sliceSlice_neg_step_witness :
    ((SliceSlice (⟨[1, 2, 3], 3, 4⟩ : Slice Int) 0 3 (-1) []).1.map
      Slice.data) = some [3, 2, 1] := by
  obtain ⟨r, hr, hd⟩ :=
    sliceSlice_neg_step.2 Int (⟨[1, 2, 3], 3, 4⟩ : Slice Int) (by decide)
  have e : Slice.len (⟨[1, 2, 3], 3, 4⟩ : Slice Int) = 3 := rfl
  rw [e] at hr
  rw [hr]
  simp [hd]

/-- The reduce loop is a left fold over the suffix of the source starting
at the entry index. -/
theorem reduceLoop_foldl {α : Type} (s : Slice α) (f : α → α → α) :
    ∀ (n : Nat) (i : Int) (r : α), (s.len - i).toNat ≤ n → 0 ≤ i →
      reduceLoop s f i r = (s.data.drop i.toNat).foldl f r := by
  intro n
  induction n with
  | zero =>
    intro i r hn h0
    rw [reduceLoop.eq_def, dif_neg (by omega)]
    have hge : s.data.length ≤ i.toNat := by unfold Slice.len at hn; omega
    rw [List.drop_eq_nil_of_le hge]
    rfl
  | succ m ih =>
    intro i r hn h0
    rw [reduceLoop.eq_def]
    by_cases hc : i < s.len
    · rw [dif_pos hc]
      have hlt : i.toNat < s.data.length := by unfold Slice.len at hc; omega
      simp only [sliceGet_in_range s i h0 hc, List.get?_eq_get hlt]
      rw [ih (i + 1) _ (by omega) (by omega)]
      have e : (i + 1).toNat = i.toNat + 1 := by omega
      rw [e, List.drop_eq_getElem_cons hlt, List.foldl_cons,
        List.get_eq_getElem]
    · rw [dif_neg hc]
      have hge : s.data.length ≤ i.toNat := by unfold Slice.len at hc; omega
      rw [List.drop_eq_nil_of_le hge]
      rfl

/-- On a non-empty source, `SliceReduce` folds the combiner from the head
element over the tail. -/
theorem sliceReduce_cons {α : Type} (s : Slice α) (f : α → α → α) (x : α)
    (rest : List α) (hs : s.data = x :: rest) :
    SliceReduce s f = some (rest.foldl f x) := by
  have hlen : (0 : Int) < s.len := by unfold Slice.len; rw [hs]; simp
  have h0 : SliceGet s 0 = some x := by
    rw [sliceGet_in_range s 0 le_rfl hlen, hs]
    rfl
  unfold SliceReduce
  simp only [h0]
  rw [reduceLoop_foldl s f (s.len - 1).toNat 1 x (by omega) (by omega), hs]
  rfl

/-- Claim C6: `SliceReduce` on an empty slice reports failure; on a
non-empty slice it is the seedless left fold with the element at index 0
as initial accumulator; a single-element slice reduces to that element,
and summation over `[1, 2, 3]` gives `6`. -/
theorem sliceReduce_spec :
    (∀ (α : Type) (s : Slice α) (f : α → α → α),
      s.data = [] → SliceReduce s f = none) ∧
    (∀ (α : Type) (s : Slice α) (f : α → α → α) (x : α) (rest : List α),
      s.data = x :: rest → SliceReduce s f = some (rest.foldl f x)) ∧
    (∀ (α : Type) (s : Slice α) (f : α → α → α) (x : α),
      s.data = [x] → SliceReduce s f = some x) ∧
    (∀ s : Slice Int, s.data = [1, 2, 3] →
      SliceReduce s (fun a b => a + b) = some 6) := by
  refine ⟨?_, ?_, ?_, ?_⟩
  · intro α s f hs
    have h0 : SliceGet s 0 = none := by
      rw [sliceGet_eq_resolve, if_neg]
      simp [resolveIdx, Slice.len, hs]
    simp [SliceReduce, h0]
  · intro α s f x rest hs
    exact sliceReduce_cons s f x rest hs
  · intro α s f x hs
    simpa using sliceReduce_cons s f x [] hs
  · intro s hs
    rw [sliceReduce_cons s (fun a b => a + b) 1 [2, 3] hs]
    norm_num [List.foldl]

/-- Witness for C6: summing the slice `[1, 2, 3]`. -/
theorem sliceReduce_spec_witness :
    SliceReduce (⟨[1, 2, 3], 3, 4⟩ : Slice Int) (fun a b => a + b) =
      some 6 :=
  sliceReduce_spec.2.2.2 (⟨[1, 2, 3], 3, 4⟩ : Slice Int) rfl

/-- Claim C2 (code bug): `SliceMap` does not check its initial `NewSlice`
result; when that allocation fails on a non-empty source, the C code hands
the NULL slice to `SliceAppend`, which dereferences it — the process
crashes instead of the failure being reported through the return value. -/
theorem sliceMap_crash_on_alloc_failure :
    (SliceMap (⟨[7], 1, 4⟩ : Slice Int) 4 (fun x => x)
      [fun _ => false]).1 = MapOut.crash := rfl

/-- A freshly constructed slice satisfies the structural invariant. -/
theorem newSlice_inv {α : Type} {elSize : Nat} {cap : Int} {h h1 : Heap}
    {s : Slice α} (hrun : NewSlice α elSize cap h = (some s, h1)) :
    SliceInv s := by
  obtain ⟨hd, hc, -, hge⟩ := newSlice_success hrun
  unfold SliceInv Slice.len
  rw [hd, hc]
  constructor
  · simp
  · simpa using hge

/-- A successful append preserves the structural invariant. -/
theorem sliceAppend_inv {α : Type} {s r : Slice α} {v : α} {h h2 : Heap}
    (hs : SliceInv s) (hrun : SliceAppend s v h = (some r, h2)) :
    SliceInv r := by
  obtain ⟨hd, -, hcap⟩ := sliceAppend_success hrun
  obtain ⟨h0, h1⟩ := hs
  have hlen : r.len = s.len + 1 := by unfold Slice.len; rw [hd]; simp
  unfold SliceInv
  unfold grownCap at hcap
  rcases hcap with ⟨hne, he⟩ | ⟨heq, he⟩ <;> constructor <;> omega

/-- The ascending copy loop preserves the structural invariant. -/
theorem copyPos_inv {α : Type} (s : Slice α) (i2 step : Int) :
    ∀ (n : Nat) (i : Int) (ret r : Slice α) (h h1 : Heap),
      (i2 - i).toNat ≤ n → SliceInv ret →
      copyPos s i2 step i ret h = (some r, h1) → SliceInv r := by
  intro n
  induction n with
  | zero =>
    intro i ret r h h1 hn hinv hrun
    rw [copyPos.eq_def, dif_neg (by omega)] at hrun
    cases hrun
    exact hinv
  | succ m ih =>
    intro i ret r h h1 hn hinv hrun
    rw [copyPos.eq_def] at hrun
    by_cases hc : 0 < step ∧ i < i2
    · rw [dif_pos hc] at hrun
      split at hrun
      · simp at hrun
      · rename_i v hget
        split at hrun
        · simp at hrun
        · rename_i ret1 h2 happ
          exact ih (i + step) ret1 r h2 h1 (by omega)
            (sliceAppend_inv hinv happ) hrun
    · rw [dif_neg hc] at hrun
      cases hrun
      exact hinv

/-- The descending copy loop preserves the structural invariant. -/
theorem copyNeg_inv {α : Type} (s : Slice α) (i1 step : Int) :
    ∀ (n : Nat) (i : Int) (ret r : Slice α) (h h1 : Heap),
      (i - i1 + 1).toNat ≤ n → SliceInv ret →
      copyNeg s i1 step i ret h = (some r, h1) → SliceInv r := by
  intro n
  induction n with
  | zero =>
    intro i ret r h h1 hn hinv hrun
    rw [copyNeg.eq_def, dif_neg (by omega)] at hrun
    cases hrun
    exact hinv
  | succ m ih =>
    intro i ret r h h1 hn hinv hrun
    rw [copyNeg.eq_def] at hrun
    by_cases hc : step < 0 ∧ i1 ≤ i
    · rw [dif_pos hc] at hrun
      split at hrun
      · simp at hrun
      · rename_i v hget
        split at hrun
        · simp at hrun
        · rename_i ret1 h2 happ
          exact ih (i + step) ret1 r h2 h1 (by omega)
            (sliceAppend_inv hinv happ) hrun
    · rw [dif_neg hc] at hrun
      cases hrun
      exact hinv

/-- The map loop preserves the structural invariant. -/
theorem mapLoop_inv {α β : Type} (s : Slice α) (f : α → β) :
    ∀ (n : Nat) (i : Int) (ret r : Slice β) (h h1 : Heap),
      (s.len - i).toNat ≤ n → SliceInv ret →
      mapLoop s f i ret h = (MapOut.ok r, h1) → SliceInv r := by
  intro n
  induction n with
  | zero =>
    intro i ret r h h1 hn hinv hrun
    rw [mapLoop.eq_def, dif_neg (by omega)] at hrun
    cases hrun
    exact hinv
  | succ m ih =>
    intro i ret r h h1 hn hinv hrun
    rw [mapLoop.eq_def] at hrun
    by_cases hc : i < s.len
    · rw [dif_pos hc] at hrun
      split at hrun
      · simp at hrun
      · rename_i v hget
        split at hrun
        · simp at hrun
        · rename_i ret1 h2 happ
          exact ih (i + 1) ret1 r h2 h1 (by omega)
            (sliceAppend_inv hinv happ) hrun
    · rw [dif_neg hc] at hrun
      cases hrun
      exact hinv

/-- The filter loop preserves the structural invariant. -/
theorem filterLoop_inv {α : Type} (s : Slice α) (f : α → Bool) :
    ∀ (n : Nat) (i : Int) (ret r : Slice α) (h h1 : Heap),
      (s.len - i).toNat ≤ n → SliceInv ret →
      filterLoop s f i ret h = (MapOut.ok r, h1) → SliceInv r := by
  intro n
  induction n with
  | zero =>
    intro i ret r h h1 hn hinv hrun
    rw [filterLoop.eq_def, dif_neg (by omega)] at hrun
    cases hrun
    exact hinv
  | succ m ih =>
    intro i ret r h h1 hn hinv hrun
    rw [filterLoop.eq_def] at hrun
    by_cases hc : i < s.len
    · rw [dif_pos hc] at hrun
      split at hrun
      · simp at hrun
      · rename_i v hget
        split at hrun
        · split at hrun
          · simp at hrun
          · rename_i ret1 h2 happ
            exact ih (i + 1) ret1 r h2 h1 (by omega)
              (sliceAppend_inv hinv happ) hrun
        · exact ih (i + 1) ret r h h1 (by omega) hinv hrun
    · rw [dif_neg hc] at hrun
      cases hrun
      exact hinv

/-- The filter loop over a NULL result slice never returns a slice. -/
theorem filterLoopNull_no_ok {α : Type} (s : Slice α) (f : α → Bool) :
    ∀ (n : Nat) (i : Int) (h : Heap) (r : Slice α) (h1 : Heap),
      (s.len - i).toNat ≤ n →
      filterLoopNull s f i h ≠ (MapOut.ok r, h1) := by
  intro n
  induction n with
  | zero =>
    intro i h r h1 hn
    rw [filterLoopNull.eq_def, dif_neg (by omega)]
    simp
  | succ m ih =>
    intro i h r h1 hn
    rw [filterLoopNull.eq_def]
    by_cases hc : i < s.len
    · rw [dif_pos hc]
      cases hget : SliceGet s i with
      | none => simp
      | some v =>
        simp only []
        by_cases hf : f v
        · simp [hf]
        · simp only [hf, if_neg]
          exact ih (i + 1) h r h1 (by omega)
    · rw [dif_neg hc]
      simp

/-- The array-append loop preserves the structural invariant. -/
theorem arrLoop_inv {α : Type} (a : Nat → α) (cnt : Nat) :
    ∀ (n : Nat) (i : Nat) (s r : Slice α) (h h1 : Heap),
      cnt - i ≤ n → SliceInv s →
      arrLoop a cnt i s h = (some r, h1) → SliceInv r := by
  intro n
  induction n with
  | zero =>
    intro i s r h h1 hn hinv hrun
    rw [arrLoop.eq_def, dif_neg (by omega)] at hrun
    cases hrun
    exact hinv
  | succ m ih =>
    intro i s r h h1 hn hinv hrun
    rw [arrLoop.eq_def] at hrun
    by_cases hc : i < cnt
    · rw [dif_pos hc] at hrun
      split at hrun
      · simp at hrun
      · rename_i s1 h2 happ
        exact ih (i + 1) s1 r h2 h1 (by omega)
          (sliceAppend_inv hinv happ) hrun
    · rw [dif_neg hc] at hrun
      cases hrun
      exact hinv

/-- The extend loop preserves the structural invariant. -/
theorem extLoop_inv {α : Type} (s2 : Slice α) :
    ∀ (n : Nat) (i : Int) (s1 r : Slice α) (h h1 : Heap),
      (s2.len - i).toNat ≤ n → SliceInv s1 →
      extLoop s2 i s1 h = (some r, h1) → SliceInv r := by
  intro n
  induction n with
  | zero =>
    intro i s1 r h h1 hn hinv hrun
    rw [extLoop.eq_def, dif_neg (by omega)] at hrun
    cases hrun
    exact hinv
  | succ m ih =>
    intro i s1 r h h1 hn hinv hrun
    rw [extLoop.eq_def] at hrun
    by_cases hc : i < s2.len
    · rw [dif_pos hc] at hrun
      split at hrun
      · simp at hrun
      · rename_i v hget
        split at hrun
        · simp at hrun
        · rename_i s3 h2 happ
          exact ih (i + 1) s3 r h2 h1 (by omega)
            (sliceAppend_inv hinv happ) hrun
    · rw [dif_neg hc] at hrun
      cases hrun
      exact hinv

/-- A successful `SliceEmpty` establishes the structural invariant. -/
theorem sliceEmpty_inv {α : Type} {s s1 : Slice α} {h h1 : Heap}
    (hrun : SliceEmpty s h = (some s1, h1)) : SliceInv s1 := by
  unfold SliceEmpty at hrun
  split at hrun
  · simp at hrun
  · cases hrun
    unfold SliceInv Slice.len
    simp

/-- A slice produced by `SliceSlice` satisfies the structural invariant. -/
theorem sliceSlice_inv {α : Type} {s s1 : Slice α} {i1 i2 step : Int}
    {h : Heap} (hrun : (SliceSlice s i1 i2 step h).1 = some s1) :
    SliceInv s1 := by
  unfold SliceSlice at hrun
  split at hrun
  · simp at hrun
  · split at hrun
    · simp at hrun
    · split at hrun
      · simp at hrun
      · rename_i ret h1 hnew
        split at hrun
        · rcases hcp : copyPos s (normEnd s.len i2) step
            (normStart s.len i1) ret h1 with ⟨o, h2⟩
          rw [hcp] at hrun
          simp at hrun
          subst hrun
          exact copyPos_inv s (normEnd s.len i2) step
            ((normEnd s.len i2) - normStart s.len i1).toNat
            (normStart s.len i1) ret s1 h1 h2 (le_refl _)
            (newSlice_inv hnew) hcp
        · rcases hcn : copyNeg s (normStart s.len i1) step
            (normEnd s.len i2 - 1) ret h1 with ⟨o, h2⟩
          rw [hcn] at hrun
          simp at hrun
          subst hrun
          exact copyNeg_inv s (normStart s.len i1) step
            ((normEnd s.len i2 - 1) - normStart s.len i1 + 1).toNat
            (normEnd s.len i2 - 1) ret s1 h1 h2 (le_refl _)
            (newSlice_inv hnew) hcn

/-- A slice produced by `SliceMap` satisfies the structural invariant. -/
theorem sliceMap_inv {α β : Type} {s : Slice α} {s1 : Slice β}
    {elSize : Nat} {f : α → β} {h : Heap}
    (hrun : (SliceMap s elSize f h).1 = MapOut.ok s1) : SliceInv s1 := by
  unfold SliceMap at hrun
  split at hrun
  · split at hrun <;> simp at hrun
  · rename_i ret h1 hnew
    rcases hm : mapLoop s f 0 ret h1 with ⟨o, h2⟩
    rw [hm] at hrun
    simp at hrun
    subst hrun
    exact mapLoop_inv s f (s.len - 0).toNat 0 ret s1 h1 h2 (le_refl _)
      (newSlice_inv hnew) hm

/-- A slice produced by `SliceFilter` satisfies the structural invariant. -/
theorem sliceFilter_inv {α : Type} {s s1 : Slice α} {f : α → Bool}
    {h : Heap} (hrun : (SliceFilter s f h).1 = MapOut.ok s1) :
    SliceInv s1 := by
  unfold SliceFilter at hrun
  split at hrun
  · rename_i h1 hnew
    rcases hfn : filterLoopNull s f 0 h1 with ⟨o, h2⟩
    rw [hfn] at hrun
    simp at hrun
    subst hrun
    exact absurd hfn
      (filterLoopNull_no_ok s f (s.len - 0).toNat 0 h1 s1 h2 (le_refl _))
  · rename_i ret h1 hnew
    rcases hf : filterLoop s f 0 ret h1 with ⟨o, h2⟩
    rw [hf] at hrun
    simp at hrun
    subst hrun
    exact filterLoop_inv s f (s.len - 0).toNat 0 ret s1 h1 h2 (le_refl _)
      (newSlice_inv hnew) hf

/-- Claim C9: in every state reachable through the public operations
(construction, append, array append, extend, clear, and the combinators),
`0 <= length <= capacity` holds. -/
theorem reach_len_le_cap {α : Type} (s : Slice α) (hs : Reach s) :
    0 ≤ s.len ∧ s.len ≤ s.cap := by
  suffices h : SliceInv s by exact h
  induction hs with
  | new hrun => exact newSlice_inv hrun
  | append hs hrun ih => exact sliceAppend_inv ih hrun
  | appendArray hs hrun ih =>
    unfold SliceAppendArray at hrun
    exact arrLoop_inv _ _ _ 0 _ _ _ _ (le_refl _) ih hrun
  | extend hs hrun ih =>
    unfold SliceExtend at hrun
    exact extLoop_inv _ _ 0 _ _ _ _ (le_refl _) ih hrun
  | empty hs hrun ih => exact sliceEmpty_inv hrun
  | subslice hs hrun ih => exact sliceSlice_inv hrun
  | map hs hrun ih => exact sliceMap_inv hrun
  | filter hs hrun ih => exact sliceFilter_inv hrun

/-- Witness for C9 on a freshly constructed slice of capacity 2. -/
theorem reach_len_le_cap_witness :
    0 ≤ Slice.len (⟨[], 2, 4⟩ : Slice Int) ∧
      Slice.len (⟨[], 2, 4⟩ : Slice Int) ≤ (⟨[], 2, 4⟩ : Slice Int).cap :=
  reach_len_le_cap (⟨[], 2, 4⟩ : Slice Int)
    (Reach.new (rfl : NewSlice Int 4 2 [] = (some ⟨[], 2, 4⟩, [])))
